import Mathlib

/-!
Shallow embedding of `nextest-runner/src/reuse_build/archiver.rs` (cargo-nextest's
build-artifact archiver) and proofs about it.

Paths are modelled as lists of components (`List String`); `[]` is the filesystem
root for absolute paths and the empty relative path for relative ones.  The
filesystem is modelled as a static tree (`FsNode`) plus a lookup function from
absolute paths to nodes; machine I/O errors are abstracted away (reads of present
plain files always succeed), which is all the claims need.
-/

namespace Nextest

/-! ### Format registry (`ArchiveFormat`, `ArchiveFormat::autodetect`) -/

/-- `errors::UnknownArchiveFormat`: carries the offending file name. -/
structure UnknownArchiveFormat where
  file_name : String
deriving DecidableEq, Repr

/-- `ArchiveFormat`: supported archive container encodings. -/
inductive ArchiveFormat where
  | TarZst
deriving DecidableEq, Repr

/-- `ArchiveFormat::SUPPORTED_FORMATS`: ordered (file suffix, format) pairs. -/
def ArchiveFormat.SUPPORTED_FORMATS : List (String × ArchiveFormat) :=
  [(".tar.zst", .TarZst)]

/-- Splitting a character list at `/` separators, accumulating the current
component in reverse (a structural model of splitting a path string). -/
def splitSlash : List Char → List Char → List (List Char)
  | [], acc => [acc.reverse]
  | c :: rest, acc =>
    if c = '/' then acc.reverse :: splitSlash rest []
    else splitSlash rest (c :: acc)

/-- Modelled from the spec: Rust's `str::ends_with` (standard library, outside
this file): suffix test on the character sequences. -/
def ends_with (s suffix : String) : Bool :=
  List.isSuffixOf suffix.toList s.toList

/-- Modelled from the spec: `camino::Utf8Path::file_name` (the camino crate is
outside this file).  Returns the final file-name component of a path, `none`
when there is none (empty path, bare separator, or a path ending in a `.` or
`..` component). -/
def fileName (p : String) : Option String :=
  let comps := (splitSlash p.toList []).filter (fun c => c ≠ [])
  match comps.getLast? with
  | none => none
  | some c =>
    if c = ['.'] ∨ c = ['.', '.'] then none else some (String.mk c)

/-- The `for (extension, format) in Self::SUPPORTED_FORMATS` loop body of
`ArchiveFormat::autodetect`. -/
def detectLoop (file_name : String) :
    List (String × ArchiveFormat) → Except UnknownArchiveFormat ArchiveFormat
  | [] => .error ⟨ file_name⟩
  | (extension, format) :: rest =>
    if ends_with file_name extension then .ok format else detectLoop file_name rest

/-- `ArchiveFormat::autodetect`: match the path's file name (defaulted to `""`)
against every registered suffix in order. -/
def ArchiveFormat.autodetect (archive_file : String) :
    Except UnknownArchiveFormat ArchiveFormat :=
  detectLoop ((fileName archive_file).getD "") ArchiveFormat.SUPPORTED_FORMATS

/-! ### Filesystem model -/

/-- A static filesystem subtree.  A `symlink` carries its fully resolved target
(`none` for a dangling link); chains of links are represented by nesting. -/
inductive FsNode where
  | file (contents : String)
  | dir (entries : List (String × FsNode))
  | symlink (target : Option FsNode)

/-- `Utf8Path::is_dir`-style test: does the node, after following symlinks,
resolve to a directory? -/
def FsNode.isDir : FsNode → Bool
  | .dir _ => true
  | .symlink (some t) => t.isDir
  | _ => false

/-- Dirent-level test (`file_type().is_dir()`): a directory itself, symlinks not
followed. -/
def FsNode.isPlainDir : FsNode → Bool
  | .dir _ => true
  | _ => false

/-- Dirent-level test (`file_type().is_symlink()`). -/
def FsNode.isSymlink : FsNode → Bool
  | .symlink _ => true
  | _ => false

/-- Opening a file for reading (follows symlinks); `none` means the read fails
(directory or dangling link). -/
def readFileNode : FsNode → Option String
  | .file c => some c
  | .symlink (some t) => readFileNode t
  | _ => none

/-- `read_dir` on a node (follows symlinks); `none` means the listing fails. -/
def readDirNode : FsNode → Option (List (String × FsNode))
  | .dir es => some es
  | .symlink (some t) => readDirNode t
  | _ => none

/-- The filesystem: absolute path components to the node found there, `none`
when nothing exists at that path. -/
def Fs : Type := List String → Option FsNode

/-! ### Archive entries, errors, and tar-header modelling -/

/-- Header metadata of an archive entry: either synthesized in memory
(`append_from_memory` sets mtime, mode and checksum explicitly) or taken from a
source file (`append_path_with_name`). -/
inductive EntryData where
  | synthesized (mtime : Nat) (mode : Nat) (cksum : Nat)
  | fromFile
deriving DecidableEq, Repr

/-- One entry of the produced tar container: destination path (forward-slash
string), contents, and header metadata. -/
structure Entry where
  dest : String
  contents : String
  data : EntryData
deriving DecidableEq, Repr

/-- `errors::ArchiveCreateError` (the variants reachable in this model). -/
inductive ArchiveCreateError where
  | createBinaryList
  | outputArchiveIo
  | inputFileRead (path : List String) (is_dir : Option Bool)
  | dirEntryRead (path : List String)
  | reporterIo
deriving DecidableEq, Repr

/-- A run outcome: a recoverable error, or a Rust `panic!`/`expect` failure
(programming-error-level, modelled as a distinguished abort). -/
inductive ArchiveAbort where
  | err (e : ArchiveCreateError)
  | panic (msg : String)
deriving DecidableEq, Repr

/-- Modelled from the spec: `tar::Header::set_cksum` computes the header
checksum per container-format rules (the tar crate is outside this file);
abstracted as a concrete function of the header fields set beforehand
(entry size, mtime, mode). -/
def Header.set_cksum (size mtime mode : Nat) : Nat :=
  size + mtime + mode

/-! ### Directory walker (`Archiver::append_dir_all`) -/

/-- One pending element of the explicit traversal stack: the node, its path
relative to the walk root, and the dirent-level `is_dir` / `is_symlink` flags
recorded when it was pushed. -/
structure StackItem where
  node : FsNode
  relSrc : List String
  is_dir : Bool
  is_symlink : Bool

/-- Modelled from the spec: `helpers::convert_rel_path_to_forward_slash`
(helpers module, outside this file) renders a relative path with forward-slash
separators regardless of host conventions; on component lists this joins with
`"/"`. -/
def convert_rel_path_to_forward_slash (p : List String) : String :=
  String.intercalate "/" p

/-- The stack item pushed for one child found while listing a directory:
`stack.push((entry.path(), file_type.is_dir(), file_type.is_symlink()))`. -/
def childItem (it : StackItem) (c : String × FsNode) : StackItem :=
  ⟨c.2, it.relSrc ++ [c.1], c.2.isPlainDir, c.2.isSymlink⟩

mutual

/-- Executable size of a node, used as the walker's termination measure. -/
def FsNode.nodeSize : FsNode → Nat
  | .file _ => 1
  | .symlink none => 1
  | .symlink (some t) => 1 + FsNode.nodeSize t
  | .dir es => 1 + entriesSize es

/-- Executable total size of a directory listing. -/
def entriesSize : List (String × FsNode) → Nat
  | [] => 0
  | (_, n) :: rest => FsNode.nodeSize n + entriesSize rest

end

/-- Termination measure: total size of the nodes pending on the stack. -/
def stackMeasure (stack : List StackItem) : Nat :=
  (stack.map (fun it => it.node.nodeSize)).sum

theorem entriesSize_eq_sum (es : List (String × FsNode)) :
    entriesSize es = (es.map (fun c => c.2.nodeSize)).sum := by
  induction es with
  | nil => simp [entriesSize]
  | cons a t ih =>
    cases a
    simp [entriesSize, ih]

theorem readDirNode_size :
    ∀ (n : FsNode) (children : List (String × FsNode)),
      readDirNode n = some children →
      ((children.map (fun c => c.2.nodeSize)).sum) < n.nodeSize
  | .file _, children, h => by simp [readDirNode] at h
  | .dir es, children, h => by
    simp only [readDirNode, Option.some.injEq] at h
    subst h
    have := entriesSize_eq_sum es
    simp only [FsNode.nodeSize]
    omega
  | .symlink none, children, h => by simp [readDirNode] at h
  | .symlink (some t), children, h => by
    have := readDirNode_size t children (by simpa [readDirNode] using h)
    simp only [FsNode.nodeSize]
    omega

theorem FsNode.one_le_nodeSize (n : FsNode) : 1 ≤ n.nodeSize := by
  cases n with
  | file c => simp [FsNode.nodeSize]
  | dir es => simp [FsNode.nodeSize]
  | symlink t => cases t <;> simp [FsNode.nodeSize]

theorem stackMeasure_append (xs ys : List StackItem) :
    stackMeasure (xs ++ ys) = stackMeasure xs + stackMeasure ys := by
  simp [stackMeasure]

theorem stackMeasure_reverse (xs : List StackItem) :
    stackMeasure xs.reverse = stackMeasure xs := by
  simp [stackMeasure, List.map_reverse, List.sum_reverse]

theorem stackMeasure_children (it : StackItem) (children : List (String × FsNode)) :
    stackMeasure (children.map (childItem it)) =
      (children.map (fun c => c.2.nodeSize)).sum := by
  induction children with
  | nil => simp [stackMeasure]
  | cons a t ih =>
    simp only [stackMeasure, List.map_cons, List.sum_cons] at ih ⊢
    simp only [childItem]
    omega

/-- `Archiver::append_dir_all`'s `while let Some(...) = stack.pop()` loop.  The
stack's top is the list head; children of a directory are pushed in listing
order (so they are popped in reverse order, as with `Vec::push`/`Vec::pop`).
Leaves are appended to `acc` in pop order; directories contribute no entry. -/
def runLoop (follow : Bool) (rel src0 : List String) :
    List StackItem → List Entry → Except ArchiveCreateError (List Entry)
  | [], acc => .ok acc
  | it :: rest, acc =>
    if it.is_dir || (it.is_symlink && follow && it.node.isDir) then
      match h : readDirNode it.node with
      | none => .error (.inputFileRead (src0 ++ it.relSrc) (some true))
      | some children =>
        runLoop follow rel src0
          (((children.map (childItem it)).reverse) ++ rest) acc
    else
      match readFileNode it.node with
      | none => .error (.inputFileRead (src0 ++ it.relSrc) (some false))
      | some contents =>
        runLoop follow rel src0 rest
          (acc ++ [⟨convert_rel_path_to_forward_slash (rel ++ it.relSrc), contents, .fromFile⟩])
termination_by stack _ => stackMeasure stack
decreasing_by
  · have hlt := readDirNode_size it.node children h
    have h1 := stackMeasure_append ((children.map (childItem it)).reverse) rest
    have h2 := stackMeasure_reverse (children.map (childItem it))
    have h3 := stackMeasure_children it children
    have h4 : stackMeasure (it :: rest) = it.node.nodeSize + stackMeasure rest := by
      simp [stackMeasure]
    omega
  · have h1 := FsNode.one_le_nodeSize it.node
    have h4 : stackMeasure (it :: rest) = it.node.nodeSize + stackMeasure rest := by
      simp [stackMeasure]
    omega

/-- The specification-level recursive description of the walk: a pending item
that is a directory (or a followed symlink to one) contributes the
concatenation of its children's results and no entry of its own; any other
item is a leaf contributing exactly one entry holding the bytes read through
the link, at the prefixed destination path. -/
def collectLeaves (follow : Bool) (rel src0 : List String) :
    List StackItem → Except ArchiveCreateError (List Entry)
  | [] => .ok []
  | it :: rest =>
    if it.is_dir || (it.is_symlink && follow && it.node.isDir) then
      match h : readDirNode it.node with
      | none => .error (.inputFileRead (src0 ++ it.relSrc) (some true))
      | some children =>
        match collectLeaves follow rel src0 ((children.map (childItem it)).reverse) with
        | .error e => .error e
        | .ok es =>
          match collectLeaves follow rel src0 rest with
          | .error e => .error e
          | .ok es2 => .ok (es ++ es2)
    else
      match readFileNode it.node with
      | none => .error (.inputFileRead (src0 ++ it.relSrc) (some false))
      | some contents =>
        match collectLeaves follow rel src0 rest with
        | .error e => .error e
        | .ok es2 =>
          .ok (⟨convert_rel_path_to_forward_slash (rel ++ it.relSrc), contents, .fromFile⟩ :: es2)
termination_by stack => stackMeasure stack
decreasing_by
  · have hlt := readDirNode_size it.node children h
    have h2 := stackMeasure_reverse (children.map (childItem it))
    have h3 := stackMeasure_children it children
    have h4 : stackMeasure (it :: rest) = it.node.nodeSize + stackMeasure rest := by
      simp [stackMeasure]
    omega
  · have h1 := FsNode.one_le_nodeSize it.node
    have h4 : stackMeasure (it :: rest) = it.node.nodeSize + stackMeasure rest := by
      simp [stackMeasure]
    omega
  · have h1 := FsNode.one_le_nodeSize it.node
    have h4 : stackMeasure (it :: rest) = it.node.nodeSize + stackMeasure rest := by
      simp [stackMeasure]
    omega

/-! ### Unfolding lemmas for the two walkers -/

theorem stackMeasure_cons (it : StackItem) (rest : List StackItem) :
    stackMeasure (it :: rest) = it.node.nodeSize + stackMeasure rest := by
  simp [stackMeasure]

theorem runLoop_nil (follow : Bool) (rel src0 : List String) (acc : List Entry) :
    runLoop follow rel src0 [] acc = .ok acc := by
  rw [runLoop]

theorem runLoop_cons_descend (follow : Bool) (rel src0 : List String)
    (it : StackItem) (rest : List StackItem) (acc : List Entry)
    (hc : (it.is_dir || (it.is_symlink && follow && it.node.isDir)) = true)
    (children : List (String × FsNode)) (hd : readDirNode it.node = some children) :
    runLoop follow rel src0 (it :: rest) acc =
      runLoop follow rel src0 (((children.map (childItem it)).reverse) ++ rest) acc := by
  rw [runLoop]
  simp only [hc, if_true]
  split
  · simp_all
  · simp_all

theorem runLoop_cons_descend_err (follow : Bool) (rel src0 : List String)
    (it : StackItem) (rest : List StackItem) (acc : List Entry)
    (hc : (it.is_dir || (it.is_symlink && follow && it.node.isDir)) = true)
    (hd : readDirNode it.node = none) :
    runLoop follow rel src0 (it :: rest) acc =
      .error (.inputFileRead (src0 ++ it.relSrc) (some true)) := by
  rw [runLoop]
  simp only [hc, if_true]
  split
  · simp_all
  · simp_all

theorem runLoop_cons_leaf (follow : Bool) (rel src0 : List String)
    (it : StackItem) (rest : List StackItem) (acc : List Entry)
    (hc : (it.is_dir || (it.is_symlink && follow && it.node.isDir)) = false)
    (contents : String) (hf : readFileNode it.node = some contents) :
    runLoop follow rel src0 (it :: rest) acc =
      runLoop follow rel src0 rest
        (acc ++ [⟨convert_rel_path_to_forward_slash (rel ++ it.relSrc), contents, .fromFile⟩]) := by
  rw [runLoop]
  simp only [hc, Bool.false_eq_true, if_false]
  split
  · simp_all
  · simp_all

theorem runLoop_cons_leaf_err (follow : Bool) (rel src0 : List String)
    (it : StackItem) (rest : List StackItem) (acc : List Entry)
    (hc : (it.is_dir || (it.is_symlink && follow && it.node.isDir)) = false)
    (hf : readFileNode it.node = none) :
    runLoop follow rel src0 (it :: rest) acc =
      .error (.inputFileRead (src0 ++ it.relSrc) (some false)) := by
  rw [runLoop]
  simp only [hc, Bool.false_eq_true, if_false]
  split
  · simp_all
  · simp_all

theorem collectLeaves_nil (follow : Bool) (rel src0 : List String) :
    collectLeaves follow rel src0 [] = .ok [] := by
  rw [collectLeaves]

theorem collectLeaves_cons_descend (follow : Bool) (rel src0 : List String)
    (it : StackItem) (rest : List StackItem)
    (hc : (it.is_dir || (it.is_symlink && follow && it.node.isDir)) = true)
    (children : List (String × FsNode)) (hd : readDirNode it.node = some children) :
    collectLeaves follow rel src0 (it :: rest) =
      (match collectLeaves follow rel src0 ((children.map (childItem it)).reverse) with
       | .error e => .error e
       | .ok es =>
         match collectLeaves follow rel src0 rest with
         | .error e => .error e
         | .ok es2 => .ok (es ++ es2)) := by
  rw [collectLeaves]
  simp only [hc, if_true]
  split
  · simp_all
  · simp_all

theorem collectLeaves_cons_descend_err (follow : Bool) (rel src0 : List String)
    (it : StackItem) (rest : List StackItem)
    (hc : (it.is_dir || (it.is_symlink && follow && it.node.isDir)) = true)
    (hd : readDirNode it.node = none) :
    collectLeaves follow rel src0 (it :: rest) =
      .error (.inputFileRead (src0 ++ it.relSrc) (some true)) := by
  rw [collectLeaves]
  simp only [hc, if_true]
  split
  · simp_all
  · simp_all

theorem collectLeaves_cons_leaf (follow : Bool) (rel src0 : List String)
    (it : StackItem) (rest : List StackItem)
    (hc : (it.is_dir || (it.is_symlink && follow && it.node.isDir)) = false)
    (contents : String) (hf : readFileNode it.node = some contents) :
    collectLeaves follow rel src0 (it :: rest) =
      (match collectLeaves follow rel src0 rest with
       | .error e => .error e
       | .ok es2 =>
         .ok (⟨convert_rel_path_to_forward_slash (rel ++ it.relSrc), contents, .fromFile⟩ :: es2)) := by
  rw [collectLeaves]
  simp only [hc, Bool.false_eq_true, if_false]
  split
  · simp_all
  · simp_all

theorem collectLeaves_cons_leaf_err (follow : Bool) (rel src0 : List String)
    (it : StackItem) (rest : List StackItem)
    (hc : (it.is_dir || (it.is_symlink && follow && it.node.isDir)) = false)
    (hf : readFileNode it.node = none) :
    collectLeaves follow rel src0 (it :: rest) =
      .error (.inputFileRead (src0 ++ it.relSrc) (some false)) := by
  rw [collectLeaves]
  simp only [hc, Bool.false_eq_true, if_false]
  split
  · simp_all
  · simp_all

/-! ### The iterative loop computes the recursive leaf collection -/

theorem collectLeaves_append (follow : Bool) (rel src0 : List String) :
    ∀ (m : Nat) (xs ys : List StackItem), stackMeasure xs ≤ m →
      collectLeaves follow rel src0 (xs ++ ys) =
        (match collectLeaves follow rel src0 xs with
         | .error e => .error e
         | .ok es =>
           match collectLeaves follow rel src0 ys with
           | .error e => .error e
           | .ok es2 => .ok (es ++ es2)) := by
  intro m
  induction m with
  | zero =>
    intro xs ys h
    match xs with
    | [] =>
      rw [List.nil_append, collectLeaves_nil]
      cases hy : collectLeaves follow rel src0 ys <;> simp
    | it :: rest =>
      exfalso
      have h1 := FsNode.one_le_nodeSize it.node
      rw [stackMeasure_cons] at h
      omega
  | succ m ih =>
    intro xs ys h
    match xs with
    | [] =>
      rw [List.nil_append, collectLeaves_nil]
      cases hy : collectLeaves follow rel src0 ys <;> simp
    | it :: rest =>
      have hrest : stackMeasure rest ≤ m := by
        have h1 := FsNode.one_le_nodeSize it.node
        rw [stackMeasure_cons] at h
        omega
      rw [List.cons_append]
      cases hc : it.is_dir || (it.is_symlink && follow && it.node.isDir) with
      | true =>
        cases hd : readDirNode it.node with
        | none =>
          rw [collectLeaves_cons_descend_err follow rel src0 it (rest ++ ys) hc hd,
            collectLeaves_cons_descend_err follow rel src0 it rest hc hd]
        | some children =>
          rw [collectLeaves_cons_descend follow rel src0 it (rest ++ ys) hc children hd,
            collectLeaves_cons_descend follow rel src0 it rest hc children hd,
            ih rest ys hrest]
          cases hch : collectLeaves follow rel src0 ((children.map (childItem it)).reverse) <;>
            cases hr : collectLeaves follow rel src0 rest <;>
            cases hy : collectLeaves follow rel src0 ys <;>
            simp
      | false =>
        cases hf : readFileNode it.node with
        | none =>
          rw [collectLeaves_cons_leaf_err follow rel src0 it (rest ++ ys) hc hf,
            collectLeaves_cons_leaf_err follow rel src0 it rest hc hf]
        | some contents =>
          rw [collectLeaves_cons_leaf follow rel src0 it (rest ++ ys) hc contents hf,
            collectLeaves_cons_leaf follow rel src0 it rest hc contents hf,
            ih rest ys hrest]
          cases hr : collectLeaves follow rel src0 rest <;>
            cases hy : collectLeaves follow rel src0 ys <;>
            simp

theorem runLoop_eq_collectLeaves (follow : Bool) (rel src0 : List String) :
    ∀ (m : Nat) (stack : List StackItem) (acc : List Entry), stackMeasure stack ≤ m →
      runLoop follow rel src0 stack acc =
        (match collectLeaves follow rel src0 stack with
         | .error e => .error e
         | .ok es => .ok (acc ++ es)) := by
  intro m
  induction m with
  | zero =>
    intro stack acc h
    match stack with
    | [] =>
      rw [runLoop_nil, collectLeaves_nil]
      simp
    | it :: rest =>
      exfalso
      have h1 := FsNode.one_le_nodeSize it.node
      rw [stackMeasure_cons] at h
      omega
  | succ m ih =>
    intro stack acc h
    match stack with
    | [] =>
      rw [runLoop_nil, collectLeaves_nil]
      simp
    | it :: rest =>
      have hrest : stackMeasure rest ≤ m := by
        have h1 := FsNode.one_le_nodeSize it.node
        rw [stackMeasure_cons] at h
        omega
      cases hc : it.is_dir || (it.is_symlink && follow && it.node.isDir) with
      | true =>
        cases hd : readDirNode it.node with
        | none =>
          rw [runLoop_cons_descend_err follow rel src0 it rest acc hc hd,
            collectLeaves_cons_descend_err follow rel src0 it rest hc hd]
        | some children =>
          have hch : stackMeasure (((children.map (childItem it)).reverse) ++ rest) ≤ m := by
            have hlt := readDirNode_size it.node children hd
            rw [stackMeasure_append, stackMeasure_reverse, stackMeasure_children]
            rw [stackMeasure_cons] at h
            omega
          rw [runLoop_cons_descend follow rel src0 it rest acc hc children hd,
            collectLeaves_cons_descend follow rel src0 it rest hc children hd,
            ih _ acc hch,
            collectLeaves_append follow rel src0 (stackMeasure ((children.map (childItem it)).reverse))
              ((children.map (childItem it)).reverse) rest le_rfl]
      | false =>
        cases hf : readFileNode it.node with
        | none =>
          rw [runLoop_cons_leaf_err follow rel src0 it rest acc hc hf,
            collectLeaves_cons_leaf_err follow rel src0 it rest hc hf]
        | some contents =>
          rw [runLoop_cons_leaf follow rel src0 it rest acc hc contents hf,
            collectLeaves_cons_leaf follow rel src0 it rest hc contents hf,
            ih rest _ hrest]
          cases hr : collectLeaves follow rel src0 rest <;> simp

/-! ### Manifest data model (`BinaryList`, `RustBuildMeta`) -/

/-- A primary (test) binary: its absolute source path. -/
structure RustBinary where
  path : List String
deriving DecidableEq, Repr

/-- A secondary (non-test) binary: its path relative to the target directory. -/
structure NonTestBinary where
  path : List String
deriving DecidableEq, Repr

/-- `RustBuildMeta`: target directory, grouped non-test binaries, linked paths
(directories relative to the target directory). -/
structure RustBuildMeta where
  target_directory : List String
  non_test_binaries : List (String × List NonTestBinary)
  linked_paths : List (List String)
deriving DecidableEq, Repr

/-- `BinaryList`: the manifest of what to archive. -/
structure BinaryList where
  rust_binaries : List RustBinary
  rust_build_meta : RustBuildMeta
deriving DecidableEq, Repr

/-- `reuse_build::PathMapper::map_binary`, consumed as an opaque mapping from a
resolved source path to the path actually read. -/
def PathMapper : Type := List String → List String

/-- Modelled from the spec: `BINARIES_METADATA_FILE_NAME` (declared in the
`reuse_build` module, outside this file), the fixed well-known entry name of
the serialized binary-list manifest; the spec's scenario names it
`manifest.json`. -/
def BINARIES_METADATA_FILE_NAME : String := "manifest.json"

/-- Modelled from the spec: `CARGO_METADATA_FILE_NAME` (declared in the
`reuse_build` module, outside this file), the fixed well-known entry name of
the raw build-metadata blob; the spec's scenario names it `metadata.txt`. -/
def CARGO_METADATA_FILE_NAME : String := "metadata.txt"

/-- Modelled from the spec: `BinaryList::to_string(OutputFormat::Serializable(
SerializableFormat::JsonPretty))` (implemented in the `list` module, outside
this file) produces the structured text serialization of the binary-list
manifest; abstracted as a total serialization of the binary paths. -/
def BinaryList.to_string (bl : BinaryList) : Except ArchiveCreateError String :=
  .ok (String.intercalate "\n"
    (bl.rust_binaries.map (fun b => String.intercalate "/" b.path)))

/-- `Utf8Path::parent`: drop the final component; `none` at the root. -/
def parentDir : List String → Option (List String)
  | [] => none
  | p => some p.dropLast

/-- `Utf8Path::strip_prefix` on component lists: `some` of the remainder when
`pre` is a leading run of components of `p`. -/
def stripComponents (p pre : List String) : Option (List String) :=
  if pre.isPrefixOf p then some (p.drop pre.length) else none

/-- Reading the bytes of the file at an absolute path (follows symlinks). -/
def readFileAt (fs : Fs) (p : List String) : Option String :=
  match fs p with
  | none => none
  | some n => readFileNode n

/-! ### The archiver (`Archiver`) -/

/-- The archiver's mutable state: the entries written to the tar builder so
far, and the running `file_count`. -/
def ArchiverSt : Type := List Entry × Nat

/-- The synthesized entry built by `Archiver::append_from_memory`: a fresh gnu
header with the entry size, the construction-time mtime, mode `0o664`, and the
checksum over those fields. -/
def memEntry (unix_timestamp : Nat) (name contents : String) : Entry :=
  ⟨name, contents, .synthesized unix_timestamp 0o664
    (Header.set_cksum contents.length unix_timestamp 0o664)⟩

/-- `Archiver::append_from_memory`: synthesize a tar header (size, the
construction-time mtime, mode `0o664`, checksum), append the in-memory entry,
and increment `file_count`. -/
def append_from_memory (unix_timestamp : Nat) (name contents : String)
    (st : ArchiverSt) : ArchiverSt :=
  (st.1 ++ [memEntry unix_timestamp name contents], st.2 + 1)

/-- `Archiver::append_path`: append the file at `src` under destination `dest`
and increment `file_count`; a read failure is an `InputFileRead` error. -/
def append_path (fs : Fs) (src : List String) (dest : String)
    (st : ArchiverSt) : Except ArchiveCreateError ArchiverSt :=
  match readFileAt fs src with
  | none => .error (.inputFileRead src (some false))
  | some contents => .ok (st.1 ++ [⟨dest, contents, .fromFile⟩], st.2 + 1)

/-- The `for binary in &self.binary_list.rust_binaries` loop: strip the parent
of the target directory off the binary's path (both `expect`s model Rust
panics), normalize to forward slashes, append, and then increment
`file_count` once more (in addition to the increment inside `append_path`). -/
def archivePrimaries (fs : Fs) (target_dir : List String) :
    List RustBinary → ArchiverSt → Except ArchiveAbort ArchiverSt
  | [], st => .ok st
  | binary :: rest, st =>
    match parentDir target_dir with
    | none => .error (.panic "target dir cannot be the root")
    | some parent =>
      match stripComponents binary.path parent with
      | none => .error (.panic "binary paths must be within target directory")
      | some rel_path =>
        match append_path fs binary.path (convert_rel_path_to_forward_slash rel_path) st with
        | .error e => .error (.err e)
        | .ok st => archivePrimaries fs target_dir rest (st.1, st.2 + 1)

/-- The `for non_test_binary in ... flat_map` loop: resolve through the target
directory, apply the path mapper, place under `target/<relative-path>`, append,
and then increment `file_count` once more (in addition to the increment inside
`append_path`). -/
def archiveNonTest (fs : Fs) (path_mapper : PathMapper) (target_dir : List String) :
    List NonTestBinary → ArchiverSt → Except ArchiveAbort ArchiverSt
  | [], st => .ok st
  | non_test_binary :: rest, st =>
    let src_path := path_mapper (target_dir ++ non_test_binary.path)
    let rel_path := convert_rel_path_to_forward_slash ("target" :: non_test_binary.path)
    match append_path fs src_path rel_path st with
    | .error e => .error (.err e)
    | .ok st => archiveNonTest fs path_mapper target_dir rest (st.1, st.2 + 1)

/-- `Archiver::append_dir_all` at the archive level: look up the walk root and
run the iterative stack loop with `(src_path, true, false)` as initial stack;
each appended leaf increments `file_count` (via `append_path`). -/
def append_dir_all (fs : Fs) (rel_path src_path : List String) (follow : Bool)
    (st : ArchiverSt) : Except ArchiveCreateError ArchiverSt :=
  match fs src_path with
  | none => .error (.inputFileRead src_path (some true))
  | some root =>
    match runLoop follow rel_path src_path [⟨root, [], true, false⟩] [] with
    | .error e => .error e
    | .ok es => .ok (st.1 ++ es, st.2 + es.length)

/-- The `for linked_path in &self.binary_list.rust_build_meta.linked_paths`
loop: resolve through the target directory, apply the path mapper, and include
the whole tree under `target/<linked-path>` with `follow = true`. -/
def archiveLinked (fs : Fs) (path_mapper : PathMapper) (target_dir : List String) :
    List (List String) → ArchiverSt → Except ArchiveAbort ArchiverSt
  | [], st => .ok st
  | linked_path :: rest, st =>
    let src_path := path_mapper (target_dir ++ linked_path)
    let rel_path := "target" :: linked_path
    match append_dir_all fs rel_path src_path true st with
    | .error e => .error (.err e)
    | .ok st => archiveLinked fs path_mapper target_dir rest st

/-- The grouped secondary binaries, flattened (`flat_map(|(_, binaries)| binaries)`). -/
def flattenedNonTest (bl : BinaryList) : List NonTestBinary :=
  bl.rust_build_meta.non_test_binaries.flatMap (fun g => g.2)

/-- `Archiver::archive`: serialize and append the two in-memory manifest
entries, then primary binaries, then secondary binaries, then linked paths;
return the entries written (standing in for the recovered writer) and the
final `file_count`.  `unix_timestamp` is the wall-clock time captured once at
construction (`Archiver::new`). -/
def Archiver.archive (bl : BinaryList) (cargo_metadata : String)
    (path_mapper : PathMapper) (fs : Fs) (unix_timestamp : Nat) :
    Except ArchiveAbort (List Entry × Nat) :=
  match BinaryList.to_string bl with
  | .error e => .error (.err e)
  | .ok binaries_metadata =>
    let st := append_from_memory unix_timestamp BINARIES_METADATA_FILE_NAME binaries_metadata ([], 0)
    let st := append_from_memory unix_timestamp CARGO_METADATA_FILE_NAME cargo_metadata st
    let target_dir := bl.rust_build_meta.target_directory
    match archivePrimaries fs target_dir bl.rust_binaries st with
    | .error e => .error e
    | .ok st =>
      match archiveNonTest fs path_mapper target_dir (flattenedNonTest bl) st with
      | .error e => .error e
      | .ok st =>
        match archiveLinked fs path_mapper target_dir bl.rust_build_meta.linked_paths st with
        | .error e => .error e
        | .ok st => .ok (st.1, st.2)

/-- Does a run outcome end in a Rust panic (as opposed to returning
normally or with a recoverable error)? -/
def isPanicResult {α : Type} : Except ArchiveAbort α → Bool
  | .error (.panic _) => true
  | _ => false

/-! ### Atomic output writer and `archive_to_file` -/

/-- Modelled from the spec: `atomicwrites::AtomicFile::write` with
`OverwriteBehavior::AllowOverwrite` (the atomicwrites crate is outside this
file).  The caller-supplied operation either fails — leaving the destination
exactly as it was — or succeeds with the staged content, which is then
published to the destination.  `pre` is the destination's prior state (`none`:
no file); the returned pair is the destination's new state and the result. -/
def AtomicFile.write {α β ε : Type} (pre : Option α) (op : Except ε (α × β)) :
    Option α × Except ε β :=
  match op with
  | .error e => (pre, .error e)
  | .ok (content, ret) => (some content, .ok ret)

/-- `archive_to_file`: inside the atomic write, report `ArchiveStarted` (an
observer failure is a `ReporterIo` error), run the archiver, and stage its
output; after a successful publish, report `Archived` (an observer failure is
again a `ReporterIo` error, but the destination keeps the published archive).
`start_ok` / `done_ok` model whether the two observer callbacks succeed. -/
def archive_to_file (bl : BinaryList) (cargo_metadata : String)
    (path_mapper : PathMapper) (fs : Fs) (unix_timestamp : Nat)
    (start_ok done_ok : Bool) (pre : Option (List Entry)) :
    Option (List Entry) × Except ArchiveAbort Nat :=
  let op : Except ArchiveAbort (List Entry × Nat) :=
    if start_ok then Archiver.archive bl cargo_metadata path_mapper fs unix_timestamp
    else .error (.err .reporterIo)
  match AtomicFile.write pre op with
  | (dest, .error e) => (dest, .error e)
  | (dest, .ok file_count) =>
    if done_ok then (dest, .ok file_count)
    else (dest, .error (.err .reporterIo))

/-! ### Characterizing the entries each loop appends -/

theorem parentDir_eq_some {td parent : List String} (h : parentDir td = some parent) :
    td ≠ [] ∧ parent = td.dropLast := by
  cases td with
  | nil => simp [parentDir] at h
  | cons a l =>
    refine ⟨by simp, ?_⟩
    simp only [parentDir, Option.some.injEq] at h
    exact h.symm

theorem stripComponents_eq_some {p pre rel : List String}
    (h : stripComponents p pre = some rel) : pre ++ rel = p := by
  unfold stripComponents at h
  cases hp : pre.isPrefixOf p with
  | false => rw [hp] at h; simp at h
  | true =>
    rw [hp] at h
    simp only [if_true, Option.some.injEq] at h
    obtain ⟨t, ht⟩ := List.isPrefixOf_iff_prefix.mp hp
    subst ht
    rw [← h, List.drop_left]

theorem stripComponents_of_isPrefixOf {p pre : List String}
    (hp : pre.isPrefixOf p = true) : stripComponents p pre = some (p.drop pre.length) := by
  simp [stripComponents, hp]

theorem archivePrimaries_entries (fs : Fs) (td : List String) :
    ∀ (bins : List RustBinary) (st st' : ArchiverSt),
      archivePrimaries fs td bins st = .ok st' →
      ∃ new, st'.1 = st.1 ++ new ∧
        ∀ e ∈ new, ∃ b ∈ bins, ∃ rel,
          stripComponents b.path td.dropLast = some rel ∧
          e.dest = convert_rel_path_to_forward_slash rel ∧
          readFileAt fs b.path = some e.contents ∧
          e.data = .fromFile := by
  intro bins
  induction bins with
  | nil =>
    intro st st' h
    simp only [archivePrimaries, Except.ok.injEq] at h
    exact ⟨[], by rw [← h]; simp, by simp⟩
  | cons b rest ih =>
    intro st st' h
    simp only [archivePrimaries] at h
    cases hp : parentDir td with
    | none => rw [hp] at h; simp at h
    | some parent =>
      obtain ⟨-, rfl⟩ := parentDir_eq_some hp
      simp only [hp] at h
      cases hs : stripComponents b.path td.dropLast with
      | none => simp [hs] at h
      | some rel =>
        simp only [hs] at h
        cases ha : append_path fs b.path (convert_rel_path_to_forward_slash rel) st with
        | error e => simp [ha] at h
        | ok st1 =>
          simp only [ha] at h
          obtain ⟨new, hnew, hshape⟩ := ih (st1.1, st1.2 + 1) st' h
          unfold append_path at ha
          cases hr : readFileAt fs b.path with
          | none => rw [hr] at ha; simp at ha
          | some contents =>
            rw [hr] at ha
            simp only [Except.ok.injEq] at ha
            refine ⟨⟨convert_rel_path_to_forward_slash rel, contents, .fromFile⟩ :: new, ?_, ?_⟩
            · rw [hnew, ← ha]
              simp
            · intro e he
              rcases List.mem_cons.mp he with rfl | he2
              · exact ⟨b, List.mem_cons_self b rest, rel, hs, rfl, hr, rfl⟩
              · obtain ⟨b2, hb2, rel2, h1, h2, h3, h4⟩ := hshape e he2
                exact ⟨b2, List.mem_cons_of_mem b hb2, rel2, h1, h2, h3, h4⟩

theorem archiveNonTest_entries (fs : Fs) (pm : PathMapper) (td : List String) :
    ∀ (lst : List NonTestBinary) (st st' : ArchiverSt),
      archiveNonTest fs pm td lst st = .ok st' →
      ∃ new, st'.1 = st.1 ++ new ∧
        ∀ e ∈ new, ∃ ntb ∈ lst,
          e.dest = convert_rel_path_to_forward_slash ("target" :: ntb.path) ∧
          readFileAt fs (pm (td ++ ntb.path)) = some e.contents ∧
          e.data = .fromFile := by
  intro lst
  induction lst with
  | nil =>
    intro st st' h
    simp only [archiveNonTest, Except.ok.injEq] at h
    exact ⟨[], by rw [← h]; simp, by simp⟩
  | cons ntb rest ih =>
    intro st st' h
    simp only [archiveNonTest] at h
    cases ha : append_path fs (pm (td ++ ntb.path))
        (convert_rel_path_to_forward_slash ("target" :: ntb.path)) st with
    | error e => simp [ha] at h
    | ok st1 =>
      simp only [ha] at h
      obtain ⟨new, hnew, hshape⟩ := ih (st1.1, st1.2 + 1) st' h
      unfold append_path at ha
      cases hr : readFileAt fs (pm (td ++ ntb.path)) with
      | none => rw [hr] at ha; simp at ha
      | some contents =>
        rw [hr] at ha
        simp only [Except.ok.injEq] at ha
        refine ⟨⟨convert_rel_path_to_forward_slash ("target" :: ntb.path), contents, .fromFile⟩ :: new, ?_, ?_⟩
        · rw [hnew, ← ha]
          simp
        · intro e he
          rcases List.mem_cons.mp he with rfl | he2
          · exact ⟨ntb, List.mem_cons_self ntb rest, rfl, hr, rfl⟩
          · obtain ⟨n2, hn2, h1, h2, h3⟩ := hshape e he2
            exact ⟨n2, List.mem_cons_of_mem ntb hn2, h1, h2, h3⟩

theorem collectLeaves_shape (follow : Bool) (rel src0 : List String) :
    ∀ (m : Nat) (stack : List StackItem), stackMeasure stack ≤ m →
      ∀ es, collectLeaves follow rel src0 stack = .ok es →
      ∀ e ∈ es, ∃ sub, e.dest = convert_rel_path_to_forward_slash (rel ++ sub) ∧
        e.data = .fromFile := by
  intro m
  induction m with
  | zero =>
    intro stack h es hok e he
    match stack with
    | [] =>
      rw [collectLeaves_nil] at hok
      simp only [Except.ok.injEq] at hok
      rw [← hok] at he
      simp at he
    | it :: rest =>
      exfalso
      have h1 := FsNode.one_le_nodeSize it.node
      rw [stackMeasure_cons] at h
      omega
  | succ m ih =>
    intro stack h es hok e he
    match stack with
    | [] =>
      rw [collectLeaves_nil] at hok
      simp only [Except.ok.injEq] at hok
      rw [← hok] at he
      simp at he
    | it :: rest =>
      have hrest : stackMeasure rest ≤ m := by
        have h1 := FsNode.one_le_nodeSize it.node
        rw [stackMeasure_cons] at h
        omega
      cases hc : it.is_dir || (it.is_symlink && follow && it.node.isDir) with
      | true =>
        cases hd : readDirNode it.node with
        | none =>
          rw [collectLeaves_cons_descend_err follow rel src0 it rest hc hd] at hok
          simp at hok
        | some children =>
          rw [collectLeaves_cons_descend follow rel src0 it rest hc children hd] at hok
          cases hch : collectLeaves follow rel src0 ((children.map (childItem it)).reverse) with
          | error e2 => rw [hch] at hok; simp at hok
          | ok es1 =>
            rw [hch] at hok
            cases hr : collectLeaves follow rel src0 rest with
            | error e2 => rw [hr] at hok; simp at hok
            | ok es2 =>
              rw [hr] at hok
              simp only [Except.ok.injEq] at hok
              rw [← hok] at he
              have hchm : stackMeasure ((children.map (childItem it)).reverse) ≤ m := by
                have hlt := readDirNode_size it.node children hd
                rw [stackMeasure_reverse, stackMeasure_children]
                rw [stackMeasure_cons] at h
                omega
              rcases List.mem_append.mp he with h1 | h2
              · exact ih _ hchm es1 hch e h1
              · exact ih rest hrest es2 hr e h2
      | false =>
        cases hf : readFileNode it.node with
        | none =>
          rw [collectLeaves_cons_leaf_err follow rel src0 it rest hc hf] at hok
          simp at hok
        | some contents =>
          rw [collectLeaves_cons_leaf follow rel src0 it rest hc contents hf] at hok
          cases hr : collectLeaves follow rel src0 rest with
          | error e2 => rw [hr] at hok; simp at hok
          | ok es2 =>
            rw [hr] at hok
            simp only [Except.ok.injEq] at hok
            rw [← hok] at he
            rcases List.mem_cons.mp he with rfl | h2
            · exact ⟨it.relSrc, rfl, rfl⟩
            · exact ih rest hrest es2 hr e h2

theorem append_dir_all_entries (fs : Fs) (rel src : List String) (st st' : ArchiverSt)
    (h : append_dir_all fs rel src true st = .ok st') :
    ∃ new, st'.1 = st.1 ++ new ∧
      ∀ e ∈ new, ∃ sub, e.dest = convert_rel_path_to_forward_slash (rel ++ sub) ∧
        e.data = .fromFile := by
  unfold append_dir_all at h
  cases hroot : fs src with
  | none => simp [hroot] at h
  | some root =>
    simp only [hroot] at h
    cases hrun : runLoop true rel src [⟨root, [], true, false⟩] [] with
    | error e => simp [hrun] at h
    | ok es =>
      simp only [hrun, Except.ok.injEq] at h
      rw [runLoop_eq_collectLeaves true rel src (stackMeasure [⟨root, [], true, false⟩])
        [⟨root, [], true, false⟩] [] le_rfl] at hrun
      cases hcl : collectLeaves true rel src [⟨root, [], true, false⟩] with
      | error e => rw [hcl] at hrun; simp at hrun
      | ok es0 =>
        rw [hcl] at hrun
        simp only [List.nil_append, Except.ok.injEq] at hrun
        subst hrun
        exact ⟨es0, by rw [← h], collectLeaves_shape true rel src _ _ le_rfl es0 hcl⟩

theorem archiveLinked_entries (fs : Fs) (pm : PathMapper) (td : List String) :
    ∀ (lps : List (List String)) (st st' : ArchiverSt),
      archiveLinked fs pm td lps st = .ok st' →
      ∃ new, st'.1 = st.1 ++ new ∧
        ∀ e ∈ new, ∃ lp ∈ lps, ∃ sub,
          e.dest = convert_rel_path_to_forward_slash (("target" :: lp) ++ sub) ∧
          e.data = .fromFile := by
  intro lps
  induction lps with
  | nil =>
    intro st st' h
    simp only [archiveLinked, Except.ok.injEq] at h
    exact ⟨[], by rw [← h]; simp, by simp⟩
  | cons lp rest ih =>
    intro st st' h
    simp only [archiveLinked] at h
    cases ha : append_dir_all fs ("target" :: lp) (pm (td ++ lp)) true st with
    | error e => simp [ha] at h
    | ok st1 =>
      simp only [ha] at h
      obtain ⟨new1, hnew1, hshape1⟩ := append_dir_all_entries fs _ _ st st1 ha
      obtain ⟨new2, hnew2, hshape2⟩ := ih st1 st' h
      refine ⟨new1 ++ new2, by rw [hnew2, hnew1, List.append_assoc], ?_⟩
      intro e he
      rcases List.mem_append.mp he with h1 | h2
      · obtain ⟨sub, hs1, hs2⟩ := hshape1 e h1
        exact ⟨lp, List.mem_cons_self lp rest, sub, hs1, hs2⟩
      · obtain ⟨lp2, hlp2, sub, hs1, hs2⟩ := hshape2 e h2
        exact ⟨lp2, List.mem_cons_of_mem lp hlp2, sub, hs1, hs2⟩

/-! ### Panic-freedom of the loops -/

theorem archiveNonTest_not_panic (fs : Fs) (pm : PathMapper) (td : List String) :
    ∀ (lst : List NonTestBinary) (st : ArchiverSt),
      isPanicResult (archiveNonTest fs pm td lst st) = false := by
  intro lst
  induction lst with
  | nil => intro st; rfl
  | cons ntb rest ih =>
    intro st
    simp only [archiveNonTest]
    cases ha : append_path fs (pm (td ++ ntb.path))
        (convert_rel_path_to_forward_slash ("target" :: ntb.path)) st with
    | error e => simp only [ha]; rfl
    | ok st1 => simp only [ha]; exact ih _

theorem archiveLinked_not_panic (fs : Fs) (pm : PathMapper) (td : List String) :
    ∀ (lps : List (List String)) (st : ArchiverSt),
      isPanicResult (archiveLinked fs pm td lps st) = false := by
  intro lps
  induction lps with
  | nil => intro st; rfl
  | cons lp rest ih =>
    intro st
    simp only [archiveLinked]
    cases ha : append_dir_all fs ("target" :: lp) (pm (td ++ lp)) true st with
    | error e => simp only [ha]; rfl
    | ok st1 => simp only [ha]; exact ih _

theorem archivePrimaries_not_panic (fs : Fs) (td : List String) (htd : td ≠ []) :
    ∀ (bins : List RustBinary) (st : ArchiverSt),
      (∀ b ∈ bins, td.isPrefixOf b.path = true) →
      isPanicResult (archivePrimaries fs td bins st) = false := by
  intro bins
  induction bins with
  | nil => intro st _; rfl
  | cons b rest ih =>
    intro st hpre
    simp only [archivePrimaries]
    have hparent : parentDir td = some td.dropLast := by
      cases td with
      | nil => exact absurd rfl htd
      | cons a l => simp [parentDir]
    simp only [hparent]
    have hbp : td.isPrefixOf b.path = true := hpre b (List.mem_cons_self b rest)
    have hdp : td.dropLast.isPrefixOf b.path = true :=
      List.isPrefixOf_iff_prefix.mpr
        ((List.dropLast_prefix td).trans (List.isPrefixOf_iff_prefix.mp hbp))
    simp only [stripComponents_of_isPrefixOf hdp]
    cases ha : append_path fs b.path
        (convert_rel_path_to_forward_slash (b.path.drop td.dropLast.length)) st with
    | error e => simp only [ha]; rfl
    | ok st1 =>
      simp only [ha]
      exact ih _ (fun b2 hb2 => hpre b2 (List.mem_cons_of_mem b hb2))

/-! ### The path mapper's scope -/

theorem archiveNonTest_congr (fs : Fs) (td : List String) (f g : PathMapper) :
    ∀ (lst : List NonTestBinary) (st : ArchiverSt),
      (∀ ntb ∈ lst, f (td ++ ntb.path) = g (td ++ ntb.path)) →
      archiveNonTest fs f td lst st = archiveNonTest fs g td lst st := by
  intro lst
  induction lst with
  | nil => intro st _; rfl
  | cons ntb rest ih =>
    intro st hagree
    simp only [archiveNonTest]
    rw [hagree ntb (List.mem_cons_self ntb rest)]
    cases ha : append_path fs (g (td ++ ntb.path))
        (convert_rel_path_to_forward_slash ("target" :: ntb.path)) st with
    | error e => rfl
    | ok st1 => exact ih _ (fun n2 hn2 => hagree n2 (List.mem_cons_of_mem ntb hn2))

theorem archiveLinked_congr (fs : Fs) (td : List String) (f g : PathMapper) :
    ∀ (lps : List (List String)) (st : ArchiverSt),
      (∀ lp ∈ lps, f (td ++ lp) = g (td ++ lp)) →
      archiveLinked fs f td lps st = archiveLinked fs g td lps st := by
  intro lps
  induction lps with
  | nil => intro st _; rfl
  | cons lp rest ih =>
    intro st hagree
    simp only [archiveLinked]
    rw [hagree lp (List.mem_cons_self lp rest)]
    cases ha : append_dir_all fs ("target" :: lp) (g (td ++ lp)) true st with
    | error e => rfl
    | ok st1 => exact ih _ (fun l2 hl2 => hagree l2 (List.mem_cons_of_mem lp hl2))

/-! ### Decomposition of a successful archive run -/

theorem archive_ok_entries (bl : BinaryList) (cm : String) (pm : PathMapper) (fs : Fs)
    (now : Nat) (entries : List Entry) (n : Nat)
    (h : Archiver.archive bl cm pm fs now = .ok (entries, n)) :
    ∃ bmeta new1 new2 new3,
      BinaryList.to_string bl = .ok bmeta ∧
      entries = memEntry now BINARIES_METADATA_FILE_NAME bmeta ::
        memEntry now CARGO_METADATA_FILE_NAME cm :: (new1 ++ new2 ++ new3) ∧
      (∀ e ∈ new1, ∃ b ∈ bl.rust_binaries, ∃ rel,
        stripComponents b.path bl.rust_build_meta.target_directory.dropLast = some rel ∧
        e.dest = convert_rel_path_to_forward_slash rel ∧
        readFileAt fs b.path = some e.contents ∧ e.data = .fromFile) ∧
      (∀ e ∈ new2, ∃ ntb ∈ flattenedNonTest bl,
        e.dest = convert_rel_path_to_forward_slash ("target" :: ntb.path) ∧
        readFileAt fs (pm (bl.rust_build_meta.target_directory ++ ntb.path)) = some e.contents ∧
        e.data = .fromFile) ∧
      (∀ e ∈ new3, ∃ lp ∈ bl.rust_build_meta.linked_paths, ∃ sub,
        e.dest = convert_rel_path_to_forward_slash (("target" :: lp) ++ sub) ∧
        e.data = .fromFile) := by
  unfold Archiver.archive at h
  cases hts : BinaryList.to_string bl with
  | error e => simp [hts] at h
  | ok bmeta =>
    simp only [hts] at h
    cases h1 : archivePrimaries fs bl.rust_build_meta.target_directory bl.rust_binaries
        (append_from_memory now CARGO_METADATA_FILE_NAME cm
          (append_from_memory now BINARIES_METADATA_FILE_NAME bmeta ([], 0))) with
    | error e => simp [h1] at h
    | ok st1 =>
      simp only [h1] at h
      cases h2 : archiveNonTest fs pm bl.rust_build_meta.target_directory
          (flattenedNonTest bl) st1 with
      | error e => simp [h2] at h
      | ok st2 =>
        simp only [h2] at h
        cases h3 : archiveLinked fs pm bl.rust_build_meta.target_directory
            bl.rust_build_meta.linked_paths st2 with
        | error e => simp [h3] at h
        | ok st3 =>
          simp only [h3, Except.ok.injEq, Prod.mk.injEq] at h
          obtain ⟨hent, -⟩ := h
          obtain ⟨new1, hn1, hs1⟩ := archivePrimaries_entries fs _ _ _ _ h1
          obtain ⟨new2, hn2, hs2⟩ := archiveNonTest_entries fs pm _ _ _ _ h2
          obtain ⟨new3, hn3, hs3⟩ := archiveLinked_entries fs pm _ _ _ _ h3
          refine ⟨bmeta, new1, new2, new3, rfl, ?_, hs1, hs2, hs3⟩
          rw [← hent, hn3, hn2, hn1]
          simp [append_from_memory]

/-! ### The spec's scenario input -/

/-- The spec's scenario manifest: one primary binary `build/debug/mytest`,
build root `build`, no secondary binaries, no linked paths. -/
def scenarioBinaryList : BinaryList :=
  ⟨[⟨["build", "debug", "mytest"]⟩], ⟨["build"], [], []⟩⟩

/-- The scenario filesystem: exactly the primary binary exists. -/
def scenarioFs : Fs := fun p =>
  if p = ["build", "debug", "mytest"] then some (.file "mytest-bytes") else none

/-! ### Claims -/

/-- C1: the spec claims a successful run reports exactly `2 + P + S + F`
entries as the `file_count` of the completion event.  The code increments
`file_count` twice per primary and per secondary binary (once inside
`append_path` and once again at each call site), so on the spec's own scenario
(P = 1, S = 0, F = 0) the archive contains 3 entries but the reported
`file_count` is 4, not `2 + 1 + 0 + 0 = 3`. -/
theorem archive_scenario_reported_count :
    Archiver.archive scenarioBinaryList "cargo-metadata-contents" (fun p => p) scenarioFs 100 =
      .ok ([memEntry 100 BINARIES_METADATA_FILE_NAME "build/debug/mytest",
            memEntry 100 CARGO_METADATA_FILE_NAME "cargo-metadata-contents",
            ⟨"build/debug/mytest", "mytest-bytes", .fromFile⟩], 4) ∧
    ([memEntry 100 BINARIES_METADATA_FILE_NAME "build/debug/mytest",
      memEntry 100 CARGO_METADATA_FILE_NAME "cargo-metadata-contents",
      ⟨"build/debug/mytest", "mytest-bytes", .fromFile⟩] : List Entry).length = 3 ∧
    2 + 1 + 0 + 0 = 3 :=
  ⟨rfl, rfl, rfl⟩

/-- C2: the atomic output writer leaves the destination exactly as it was when
the caller-supplied write operation fails (in `archive_to_file`, any archiving
error surfaces as such a failure), and publishes the staged content only on
success. -/
theorem atomic_write_all_or_nothing {α β ε : Type} (pre : Option α)
    (op : Except ε (α × β)) :
    (∀ e, op = .error e → AtomicFile.write pre op = (pre, .error e)) ∧
    (∀ content ret, op = .ok (content, ret) →
      AtomicFile.write pre op = (some content, .ok ret)) ∧
    (∀ (bl : BinaryList) (cm : String) (pm : PathMapper) (fs : Fs) (now : Nat)
        (done_ok : Bool) (pre2 : Option (List Entry)) (e : ArchiveAbort),
      Archiver.archive bl cm pm fs now = .error e →
      archive_to_file bl cm pm fs now true done_ok pre2 = (pre2, .error e)) := by
  refine ⟨?_, ?_, ?_⟩
  · intro e he
    subst he
    rfl
  · intro content ret hok
    subst hok
    rfl
  · intro bl cm pm fs now done_ok pre2 e harch
    unfold archive_to_file
    simp [harch, AtomicFile.write]

theorem atomic_write_all_or_nothing_witness :
    AtomicFile.write (some 1) (.error 2 : Except Nat (Nat × Nat)) = (some 1, .error 2) ∧
    AtomicFile.write (none : Option Nat) (.ok (5, 7) : Except Nat (Nat × Nat)) =
      (some 5, .ok 7) :=
  ⟨(atomic_write_all_or_nothing (some 1) (.error 2 : Except Nat (Nat × Nat))).1 2 rfl,
   (atomic_write_all_or_nothing (none : Option Nat) (.ok (5, 7) : Except Nat (Nat × Nat))).2.1
     5 7 rfl⟩

/-- C3: on every successful run, whatever the manifest contains, the entries
written start with the serialized binary-list manifest under its fixed name
and then the raw build-metadata blob under its fixed name, before any binary
or linked-path file entry. -/
theorem archive_manifest_entries_first (bl : BinaryList) (cm : String)
    (pm : PathMapper) (fs : Fs) (now : Nat) (entries : List Entry) (n : Nat)
    (h : Archiver.archive bl cm pm fs now = .ok (entries, n)) :
    ∃ bmeta rest, BinaryList.to_string bl = .ok bmeta ∧
      entries = memEntry now BINARIES_METADATA_FILE_NAME bmeta ::
        memEntry now CARGO_METADATA_FILE_NAME cm :: rest := by
  obtain ⟨bmeta, n1, n2, n3, hts, hent, -, -, -⟩ :=
    archive_ok_entries bl cm pm fs now entries n h
  exact ⟨bmeta, n1 ++ n2 ++ n3, hts, hent⟩

theorem archive_manifest_entries_first_witness :
    ∃ bmeta rest, BinaryList.to_string scenarioBinaryList = .ok bmeta ∧
      [memEntry 100 BINARIES_METADATA_FILE_NAME "build/debug/mytest",
       memEntry 100 CARGO_METADATA_FILE_NAME "cargo-metadata-contents",
       ⟨"build/debug/mytest", "mytest-bytes", .fromFile⟩] =
        memEntry 100 BINARIES_METADATA_FILE_NAME bmeta ::
          memEntry 100 CARGO_METADATA_FILE_NAME "cargo-metadata-contents" :: rest :=
  archive_manifest_entries_first scenarioBinaryList "cargo-metadata-contents"
    (fun p => p) scenarioFs 100 _ 4 rfl

/-- C6: when the build root is not the filesystem root and every primary
binary's path lies inside the build root, the strip-computation of the
primaries loop always succeeds, so neither `expect` (modelled as the
distinguished panic outcome) is reachable. -/
theorem archive_strip_no_panic (bl : BinaryList) (cm : String) (pm : PathMapper)
    (fs : Fs) (now : Nat)
    (htd : bl.rust_build_meta.target_directory ≠ [])
    (hin : ∀ b ∈ bl.rust_binaries,
      bl.rust_build_meta.target_directory.isPrefixOf b.path = true) :
    isPanicResult (Archiver.archive bl cm pm fs now) = false := by
  unfold Archiver.archive
  cases hts : BinaryList.to_string bl with
  | error e => simp only [hts]; rfl
  | ok bmeta =>
    simp only [hts]
    cases h1 : archivePrimaries fs bl.rust_build_meta.target_directory bl.rust_binaries
        (append_from_memory now CARGO_METADATA_FILE_NAME cm
          (append_from_memory now BINARIES_METADATA_FILE_NAME bmeta ([], 0))) with
    | error e =>
      have hnp := archivePrimaries_not_panic fs _ htd bl.rust_binaries
        (append_from_memory now CARGO_METADATA_FILE_NAME cm
          (append_from_memory now BINARIES_METADATA_FILE_NAME bmeta ([], 0))) hin
      rw [h1] at hnp
      simp only [h1]
      exact hnp
    | ok st1 =>
      simp only [h1]
      cases h2 : archiveNonTest fs pm bl.rust_build_meta.target_directory
          (flattenedNonTest bl) st1 with
      | error e =>
        have hnp := archiveNonTest_not_panic fs pm bl.rust_build_meta.target_directory
          (flattenedNonTest bl) st1
        rw [h2] at hnp
        simp only [h2]
        exact hnp
      | ok st2 =>
        simp only [h2]
        cases h3 : archiveLinked fs pm bl.rust_build_meta.target_directory
            bl.rust_build_meta.linked_paths st2 with
        | error e =>
          have hnp := archiveLinked_not_panic fs pm bl.rust_build_meta.target_directory
            bl.rust_build_meta.linked_paths st2
          rw [h3] at hnp
          simp only [h3]
          exact hnp
        | ok st3 => simp only [h3]; rfl

theorem archive_strip_no_panic_witness :
    isPanicResult (Archiver.archive scenarioBinaryList "cargo-metadata-contents"
      (fun p => p) scenarioFs 100) = false :=
  archive_strip_no_panic scenarioBinaryList "cargo-metadata-contents"
    (fun p => p) scenarioFs 100 (by decide) (by decide)

/-- C9: in every successful run, every entry that is not read from a file (the
two synthesized in-memory entries) carries the single timestamp captured at
archiver construction as its mtime (hence both carry the same one), mode bits
`0o664`, and the checksum computed per the container-format rule. -/
theorem synthesized_entry_fields (bl : BinaryList) (cm : String) (pm : PathMapper)
    (fs : Fs) (now : Nat) (entries : List Entry) (n : Nat)
    (h : Archiver.archive bl cm pm fs now = .ok (entries, n)) :
    ∀ e ∈ entries, e.data = .fromFile ∨
      e.data = .synthesized now 0o664 (Header.set_cksum e.contents.length now 0o664) := by
  obtain ⟨bmeta, n1, n2, n3, hts, hent, hs1, hs2, hs3⟩ :=
    archive_ok_entries bl cm pm fs now entries n h
  subst hent
  intro e he
  rcases List.mem_cons.mp he with rfl | he
  · right; rfl
  rcases List.mem_cons.mp he with rfl | he
  · right; rfl
  rcases List.mem_append.mp he with he12 | he3
  · rcases List.mem_append.mp he12 with he1 | he2
    · obtain ⟨-, -, -, -, -, -, hd⟩ := hs1 e he1
      exact Or.inl hd
    · obtain ⟨-, -, -, -, hd⟩ := hs2 e he2
      exact Or.inl hd
  · obtain ⟨-, -, -, -, hd⟩ := hs3 e he3
    exact Or.inl hd

theorem synthesized_entry_fields_witness :
    (memEntry 100 BINARIES_METADATA_FILE_NAME "build/debug/mytest").data = .fromFile ∨
    (memEntry 100 BINARIES_METADATA_FILE_NAME "build/debug/mytest").data =
      .synthesized 100 0o664 (Header.set_cksum
        (memEntry 100 BINARIES_METADATA_FILE_NAME "build/debug/mytest").contents.length
        100 0o664) :=
  synthesized_entry_fields scenarioBinaryList "cargo-metadata-contents"
    (fun p => p) scenarioFs 100
    [memEntry 100 BINARIES_METADATA_FILE_NAME "build/debug/mytest",
     memEntry 100 CARGO_METADATA_FILE_NAME "cargo-metadata-contents",
     ⟨"build/debug/mytest", "mytest-bytes", .fromFile⟩] 4 rfl
    (memEntry 100 BINARIES_METADATA_FILE_NAME "build/debug/mytest") (by simp)

/-- C10: if the archive is written and published but the completion observer
then fails, `archive_to_file` returns the observer-reporting error while the
destination keeps the complete published archive; a failing start observer
occurs inside the atomic write, so the destination is left untouched. -/
theorem archive_to_file_observer_failure (bl : BinaryList) (cm : String)
    (pm : PathMapper) (fs : Fs) (now : Nat) (pre : Option (List Entry)) :
    (∀ done_ok, archive_to_file bl cm pm fs now false done_ok pre =
      (pre, .error (.err .reporterIo))) ∧
    (∀ entries n, Archiver.archive bl cm pm fs now = .ok (entries, n) →
      archive_to_file bl cm pm fs now true false pre =
        (some entries, .error (.err .reporterIo))) := by
  constructor
  · intro done_ok
    unfold archive_to_file
    simp [AtomicFile.write]
  · intro entries n harch
    unfold archive_to_file
    simp [harch, AtomicFile.write]

theorem archive_to_file_observer_failure_witness :
    archive_to_file scenarioBinaryList "cargo-metadata-contents" (fun p => p)
      scenarioFs 100 true false none =
      (some [memEntry 100 BINARIES_METADATA_FILE_NAME "build/debug/mytest",
             memEntry 100 CARGO_METADATA_FILE_NAME "cargo-metadata-contents",
             ⟨"build/debug/mytest", "mytest-bytes", .fromFile⟩],
       .error (.err .reporterIo)) :=
  (archive_to_file_observer_failure scenarioBinaryList "cargo-metadata-contents"
    (fun p => p) scenarioFs 100 none).2
    [memEntry 100 BINARIES_METADATA_FILE_NAME "build/debug/mytest",
     memEntry 100 CARGO_METADATA_FILE_NAME "cargo-metadata-contents",
     ⟨"build/debug/mytest", "mytest-bytes", .fromFile⟩] 4 rfl

/-- C4: autodetection matches the path's final file-name component against the
registered (suffix, format) pairs in order and returns the first match; with
no match — including an empty file name and a bare separator — it returns the
`UnknownArchiveFormat` error carrying exactly the file name, not the full
path. -/
theorem autodetect_first_match (p : String) :
    (ArchiveFormat.autodetect p =
      match ArchiveFormat.SUPPORTED_FORMATS.find?
          (fun pr => ends_with ((fileName p).getD "") pr.1) with
      | some pr => .ok pr.2
      | none => .error ⟨(fileName p).getD ""⟩) ∧
    ArchiveFormat.autodetect "some-dir/no-match" = .error ⟨"no-match"⟩ ∧
    ArchiveFormat.autodetect "" = .error ⟨""⟩ ∧
    ArchiveFormat.autodetect "/" = .error ⟨""⟩ ∧
    ArchiveFormat.autodetect "foo.tar.zst" = .ok .TarZst ∧
    ArchiveFormat.autodetect "foo/bar.tar.zst" = .ok .TarZst := by
  refine ⟨?_, rfl, rfl, rfl, rfl, rfl⟩
  cases he : ends_with ((fileName p).getD "") ".tar.zst" with
  | true =>
    simp [ArchiveFormat.autodetect, detectLoop, ArchiveFormat.SUPPORTED_FORMATS,
      List.find?, he]
  | false =>
    simp [ArchiveFormat.autodetect, detectLoop, ArchiveFormat.SUPPORTED_FORMATS,
      List.find?, he]

/-- C7: in every successful run, every entry's destination path in the archive
is either one of the two fixed manifest names or the forward-slash rendering of
a component list of the documented shape: a primary binary's path relative to
the build root's parent, `target/<relative-path>` for a secondary binary, or
`target/<linked-path>/...` for a linked-path file. -/
theorem archive_dest_forward_slash (bl : BinaryList) (cm : String) (pm : PathMapper)
    (fs : Fs) (now : Nat) (entries : List Entry) (n : Nat)
    (h : Archiver.archive bl cm pm fs now = .ok (entries, n)) :
    ∀ e ∈ entries,
      e.dest = BINARIES_METADATA_FILE_NAME ∨ e.dest = CARGO_METADATA_FILE_NAME ∨
      ∃ comps, e.dest = convert_rel_path_to_forward_slash comps ∧
        ((∃ b ∈ bl.rust_binaries,
            bl.rust_build_meta.target_directory.dropLast ++ comps = b.path) ∨
         (∃ ntb ∈ flattenedNonTest bl, comps = "target" :: ntb.path) ∨
         (∃ lp ∈ bl.rust_build_meta.linked_paths, ∃ sub,
            comps = ("target" :: lp) ++ sub)) := by
  obtain ⟨bmeta, n1, n2, n3, hts, hent, hs1, hs2, hs3⟩ :=
    archive_ok_entries bl cm pm fs now entries n h
  subst hent
  intro e he
  rcases List.mem_cons.mp he with rfl | he
  · exact Or.inl rfl
  rcases List.mem_cons.mp he with rfl | he
  · exact Or.inr (Or.inl rfl)
  refine Or.inr (Or.inr ?_)
  rcases List.mem_append.mp he with he12 | he3
  · rcases List.mem_append.mp he12 with he1 | he2
    · obtain ⟨b, hb, rel, hstrip, hdest, -, -⟩ := hs1 e he1
      exact ⟨rel, hdest, Or.inl ⟨b, hb, stripComponents_eq_some hstrip⟩⟩
    · obtain ⟨ntb, hntb, hdest, -, -⟩ := hs2 e he2
      exact ⟨"target" :: ntb.path, hdest, Or.inr (Or.inl ⟨ntb, hntb, rfl⟩)⟩
  · obtain ⟨lp, hlp, sub, hdest, -⟩ := hs3 e he3
    exact ⟨("target" :: lp) ++ sub, hdest, Or.inr (Or.inr ⟨lp, hlp, sub, rfl⟩)⟩

theorem archive_dest_forward_slash_witness :
    (⟨"build/debug/mytest", "mytest-bytes", .fromFile⟩ : Entry).dest =
        BINARIES_METADATA_FILE_NAME ∨
      (⟨"build/debug/mytest", "mytest-bytes", .fromFile⟩ : Entry).dest =
        CARGO_METADATA_FILE_NAME ∨
      ∃ comps, (⟨"build/debug/mytest", "mytest-bytes", .fromFile⟩ : Entry).dest =
          convert_rel_path_to_forward_slash comps ∧
        ((∃ b ∈ scenarioBinaryList.rust_binaries,
            scenarioBinaryList.rust_build_meta.target_directory.dropLast ++ comps = b.path) ∨
         (∃ ntb ∈ flattenedNonTest scenarioBinaryList, comps = "target" :: ntb.path) ∨
         (∃ lp ∈ scenarioBinaryList.rust_build_meta.linked_paths, ∃ sub,
            comps = ("target" :: lp) ++ sub)) :=
  archive_dest_forward_slash scenarioBinaryList "cargo-metadata-contents"
    (fun p => p) scenarioFs 100
    [memEntry 100 BINARIES_METADATA_FILE_NAME "build/debug/mytest",
     memEntry 100 CARGO_METADATA_FILE_NAME "cargo-metadata-contents",
     ⟨"build/debug/mytest", "mytest-bytes", .fromFile⟩] 4 rfl
    ⟨"build/debug/mytest", "mytest-bytes", .fromFile⟩ (by simp)

/-- The source paths to which the path mapper is applied: secondary binaries
and linked paths, each resolved by joining the build root with the declared
relative path. -/
def mappedSources (bl : BinaryList) : List (List String) :=
  (flattenedNonTest bl).map (fun ntb => bl.rust_build_meta.target_directory ++ ntb.path) ++
    bl.rust_build_meta.linked_paths.map (fun lp => bl.rust_build_meta.target_directory ++ lp)

/-- C8: the path mapper is applied exactly to the source paths obtained by
joining the build root with a declared relative path — secondary binaries and
linked paths — and never to primary binaries: (i) two mappers agreeing on
those joined paths produce identical runs (in particular the mapper's values
on the primaries' absolute paths are irrelevant); (ii) a secondary binary is
read from the mapper's image of its joined path; (iii) a linked path's walk
root is the mapper's image of its joined path. -/
theorem path_mapper_scope (bl : BinaryList) (cm : String) (fs : Fs) (now : Nat)
    (f g : PathMapper) :
    ((∀ p ∈ mappedSources bl, f p = g p) →
      Archiver.archive bl cm f fs now = Archiver.archive bl cm g fs now) ∧
    (∀ (td : List String) (key : String) (path : List String),
      Archiver.archive ⟨[], ⟨td, [(key, [⟨path⟩])], []⟩⟩ cm f fs now =
        match readFileAt fs (f (td ++ path)) with
        | none => .error (.err (.inputFileRead (f (td ++ path)) (some false)))
        | some c =>
          .ok ([memEntry now BINARIES_METADATA_FILE_NAME "",
                memEntry now CARGO_METADATA_FILE_NAME cm,
                ⟨convert_rel_path_to_forward_slash ("target" :: path), c, .fromFile⟩], 4)) ∧
    (∀ (td lp : List String), fs (f (td ++ lp)) = none →
      Archiver.archive ⟨[], ⟨td, [], [lp]⟩⟩ cm f fs now =
        .error (.err (.inputFileRead (f (td ++ lp)) (some true)))) := by
  refine ⟨?_, ?_, ?_⟩
  · intro hagree
    have hnt : ∀ st, archiveNonTest fs f bl.rust_build_meta.target_directory
        (flattenedNonTest bl) st =
        archiveNonTest fs g bl.rust_build_meta.target_directory (flattenedNonTest bl) st := by
      intro st
      apply archiveNonTest_congr
      intro ntb hntb
      exact hagree _ (List.mem_append_left _ (List.mem_map.mpr ⟨ntb, hntb, rfl⟩))
    have hlk : ∀ st, archiveLinked fs f bl.rust_build_meta.target_directory
        bl.rust_build_meta.linked_paths st =
        archiveLinked fs g bl.rust_build_meta.target_directory
          bl.rust_build_meta.linked_paths st := by
      intro st
      apply archiveLinked_congr
      intro lp hlp
      exact hagree _ (List.mem_append_right _ (List.mem_map.mpr ⟨lp, hlp, rfl⟩))
    unfold Archiver.archive
    cases hts : BinaryList.to_string bl with
    | error e => simp only [hts]
    | ok bmeta =>
      simp only [hts]
      cases h1 : archivePrimaries fs bl.rust_build_meta.target_directory bl.rust_binaries
          (append_from_memory now CARGO_METADATA_FILE_NAME cm
            (append_from_memory now BINARIES_METADATA_FILE_NAME bmeta ([], 0))) with
      | error e => simp only [h1]
      | ok st1 =>
        simp only [h1, hnt st1]
        cases h2 : archiveNonTest fs g bl.rust_build_meta.target_directory
            (flattenedNonTest bl) st1 with
        | error e => simp only [h2]
        | ok st2 => simp only [h2, hlk st2]
  · intro td key path
    cases hr : readFileAt fs (f (td ++ path)) with
    | none =>
      simp [Archiver.archive, BinaryList.to_string, append_from_memory, archivePrimaries,
        archiveNonTest, archiveLinked, flattenedNonTest, append_path, hr]
    | some c =>
      simp [Archiver.archive, BinaryList.to_string, append_from_memory, archivePrimaries,
        archiveNonTest, archiveLinked, flattenedNonTest, append_path, hr, memEntry]
      exact ⟨rfl, rfl⟩
  · intro td lp hroot
    simp [Archiver.archive, BinaryList.to_string, append_from_memory, archivePrimaries,
      archiveNonTest, archiveLinked, flattenedNonTest, append_dir_all, hroot]

theorem path_mapper_scope_witness :
    Archiver.archive ⟨[], ⟨["t"], [("k", [⟨["bin"]⟩])], []⟩⟩ "cm" (fun p => p)
        (fun _ => none) 7 =
      Archiver.archive ⟨[], ⟨["t"], [("k", [⟨["bin"]⟩])], []⟩⟩ "cm"
        (fun p => if p.length = 2 then p else p ++ ["x"]) (fun _ => none) 7 :=
  (path_mapper_scope ⟨[], ⟨["t"], [("k", [⟨["bin"]⟩])], []⟩⟩ "cm" (fun _ => none) 7
      (fun p => p) (fun p => if p.length = 2 then p else p ++ ["x"])).1
    (by
      intro p hp
      simp [mappedSources, flattenedNonTest] at hp
      subst hp
      rfl)

/-- C5: the walker's iterative stack loop appends exactly the leaves of the
walked tree: it computes the recursive leaves-only collection (in which a
directory — or, with follow enabled, a symlink resolving to a directory —
contributes only its children's results and never an entry of its own, and
every other item contributes exactly one entry with the bytes read through the
link); a symlink to a file yields one leaf entry with the target's bytes; a
tree of directories alone yields no entries; and with follow disabled a
symlink to a directory is not descended into. -/
theorem append_dir_all_leaf_policy :
    (∀ (follow : Bool) (rel src0 : List String) (root : FsNode),
      runLoop follow rel src0 [⟨root, [], true, false⟩] [] =
        collectLeaves follow rel src0 [⟨root, [], true, false⟩]) ∧
    (∀ (rel src0 : List String) (name : String) (c : String),
      runLoop true rel src0 [⟨.dir [(name, .symlink (some (.file c)))], [], true, false⟩] [] =
        .ok [⟨convert_rel_path_to_forward_slash (rel ++ [name]), c, .fromFile⟩]) ∧
    (∀ (rel src0 : List String) (name : String),
      runLoop true rel src0 [⟨.dir [(name, .dir [])], [], true, false⟩] [] = .ok []) ∧
    (∀ (rel src0 : List String) (name sub : String) (c : String),
      runLoop false rel src0
          [⟨.dir [(name, .symlink (some (.dir [(sub, .file c)])))], [], true, false⟩] [] =
        .error (.inputFileRead (src0 ++ [name]) (some false))) := by
  refine ⟨?_, ?_, ?_, ?_⟩
  · intro follow rel src0 root
    rw [runLoop_eq_collectLeaves follow rel src0 (stackMeasure [⟨root, [], true, false⟩])
      [⟨root, [], true, false⟩] [] le_rfl]
    cases hcl : collectLeaves follow rel src0 [⟨root, [], true, false⟩] <;> simp
  · intro rel src0 name c
    rw [runLoop_cons_descend true rel src0 ⟨.dir [(name, .symlink (some (.file c)))], [], true, false⟩
      [] [] rfl [(name, .symlink (some (.file c)))] rfl]
    rw [show (([(name, Prod.snd (name, FsNode.symlink (some (.file c))))].map
        (childItem ⟨.dir [(name, .symlink (some (.file c)))], [], true, false⟩)).reverse ++
        ([] : List StackItem)) =
      [⟨.symlink (some (.file c)), [name], false, true⟩] from rfl]
    rw [runLoop_cons_leaf true rel src0 ⟨.symlink (some (.file c)), [name], false, true⟩
      [] [] rfl c rfl]
    rw [runLoop_nil]
    simp
  · intro rel src0 name
    rw [runLoop_cons_descend true rel src0 ⟨.dir [(name, .dir [])], [], true, false⟩
      [] [] rfl [(name, .dir [])] rfl]
    rw [show (([(name, FsNode.dir [])].map
        (childItem ⟨.dir [(name, .dir [])], [], true, false⟩)).reverse ++
        ([] : List StackItem)) = [⟨.dir [], [name], true, false⟩] from rfl]
    rw [runLoop_cons_descend true rel src0 ⟨.dir [], [name], true, false⟩ [] [] rfl [] rfl]
    rw [show ((([] : List (String × FsNode)).map
        (childItem ⟨.dir [], [name], true, false⟩)).reverse ++ ([] : List StackItem)) =
      ([] : List StackItem) from rfl]
    rw [runLoop_nil]
  · intro rel src0 name sub c
    rw [runLoop_cons_descend false rel src0
      ⟨.dir [(name, .symlink (some (.dir [(sub, .file c)])))], [], true, false⟩
      [] [] rfl [(name, .symlink (some (.dir [(sub, .file c)])))] rfl]
    rw [show (([(name, FsNode.symlink (some (.dir [(sub, .file c)])))].map
        (childItem ⟨.dir [(name, .symlink (some (.dir [(sub, .file c)])))], [], true, false⟩)).reverse ++
        ([] : List StackItem)) =
      [⟨.symlink (some (.dir [(sub, .file c)])), [name], false, true⟩] from rfl]
    rw [runLoop_cons_leaf_err false rel src0
      ⟨.symlink (some (.dir [(sub, .file c)])), [name], false, true⟩ [] [] rfl rfl]

end Nextest
